import Mathlib

/-!
Verification of the globwalk library (`src/lib.rs`): a pruning directory
walker that yields the entries of a directory tree whose relative paths
match an ordered list of glob patterns, with gitignore-style negation and
last-match-wins precedence.

The embedding has three layers:

* a model of the pattern collaborator (`ignore::overrides::Override` over
  `globset` globs): pattern strings are compiled to rules, and an ordered
  rule set is evaluated with last-match-wins precedence
  (`compilePattern`, `compileOverride`, `overrideMatched`);
* a small-step model of the traversal collaborator (`walkdir`): a stack of
  open-directory listings with a skip operation (`wdNext`,
  `skipCurrentDir`);
* the code under verification, `GlobWalker::next` and
  `GlobWalkerBuilder::build`, translated as `globNextI` / `globRunI` /
  `compileOverride` over those two collaborator models.

Paths are lists of components (`List String`); a filesystem tree is the
inductive `FS`, in which a directory's children form a sibling-chained
forest so that all definitions are structurally recursive and can be
evaluated by `decide`.
-/

namespace Globwalk

/-! ## Glob patterns (the `globset` collaborator)

A compiled glob is a sequence of segments separated by `/`; a segment is
either the recursive wildcard `**` (matching any number of path
components) or a sequence of in-segment tokens, where `*` matches any run
of non-separator characters and any other character matches itself.
Brace groups `{a,b,c}` are alternations; we compile them by expansion,
which has the same matching semantics.  Character classes and backslash
escapes are outside the modelled syntax (no pattern in this development
uses them). -/

/-- One token inside a path segment of a glob: a literal character or `*`. -/
inductive STok where
  | lit (c : Char)
  | star
deriving DecidableEq, Repr

/-- One segment of a glob: the recursive wildcard `**` or a token list. -/
inductive Seg where
  | globstar
  | seg (toks : List STok)
deriving DecidableEq, Repr

/-- Character comparison, optionally case-insensitive (the builder's
`case_insensitive` flag is applied uniformly to all patterns). -/
def charMatch (ci : Bool) (a c : Char) : Bool :=
  if ci then a.toLower == c.toLower else a == c

/-- Match a token list against the characters of one path component.
`*` matches any run of characters of the component (it cannot cross a
separator, since separators split components before this runs); this is
`globset`'s `literal_separator(true)` mode, which the gitignore builder
always enables. -/
def toksMatch (ci : Bool) : List STok → List Char → Bool
  | [], cs => cs.isEmpty
  | .lit a :: ts, [] => (fun _ => false) (a, ts)
  | .lit a :: ts, c :: cs => charMatch ci a c && toksMatch ci ts cs
  | .star :: ts, cs => cs.tails.any fun t => toksMatch ci ts t

/-- Match a segment list against a list of path components.  `**`
(`Seg.globstar`) absorbs any number of leading components, mirroring the
regex `globset` produces for it. -/
def segsMatch (ci : Bool) : List Seg → List String → Bool
  | [], cs => cs.isEmpty
  | .seg toks :: ss, [] => (fun _ => false) (toks, ss)
  | .seg toks :: ss, c :: cs => toksMatch ci toks c.toList && segsMatch ci ss cs
  | .globstar :: ss, cs => cs.tails.any fun t => segsMatch ci ss t

/-! ### Brace expansion

`globset` parses `{a,b,c}` into an alternation token; expanding the
pattern into one glob per alternative has the same matching semantics.
A `{` without a matching `}`, a `}` without a `{`, and a nested group are
compile errors, as in `globset`. -/

/-- Split the characters following a `{` into the comma-separated
alternatives and the remainder after the closing `}`. -/
def splitAlts : List Char → Except String (List (List Char) × List Char)
  | [] => .error "unclosed alternate group"
  | '}' :: rest => .ok ([[]], rest)
  | ',' :: rest => do
      let (alts, r) ← splitAlts rest
      .ok ([] :: alts, r)
  | '{' :: _ => .error "nested alternate group"
  | c :: rest => do
      let (alts, r) ← splitAlts rest
      match alts with
      | a :: as => .ok ((c :: a) :: as, r)
      | [] => .error "unclosed alternate group"

/-- Find the first brace group in a pattern, returning the text before it,
the alternatives, and the text after it, or `none` when there is no group. -/
def splitFirstBrace : List Char → Except String (Option (List Char × List (List Char) × List Char))
  | [] => .ok none
  | '{' :: rest => do
      let (alts, r) ← splitAlts rest
      .ok (some ([], alts, r))
  | '}' :: _ => .error "unopened alternate group"
  | c :: rest => do
      match (← splitFirstBrace rest) with
      | none => .ok none
      | some (pre, alts, r) => .ok (some (c :: pre, alts, r))

/-- Expand all brace groups of a pattern into a list of brace-free
patterns; `fuel` bounds the number of groups and is always sufficient when
set to the pattern length plus one. -/
def expandB : Nat → List Char → Except String (List (List Char))
  | 0, _ => .error "unclosed alternate group"
  | fuel + 1, cs => do
      match (← splitFirstBrace cs) with
      | none => .ok [cs]
      | some (pre, alts, post) => do
          let posts ← expandB fuel post
          .ok (alts.flatMap fun a => posts.map fun p => pre ++ a ++ p)

/-- Expand the brace groups of a pattern. -/
def expandBraces (cs : List Char) : Except String (List (List Char)) :=
  expandB (cs.length + 1) cs

/-- Split a character list into the segments separated by `/`. -/
def splitOnSlash : List Char → List (List Char)
  | [] => [[]]
  | '/' :: rest => [] :: splitOnSlash rest
  | c :: rest =>
      match splitOnSlash rest with
      | s :: ss => (c :: s) :: ss
      | [] => [[c]]

/-- Compile one brace-free segment. -/
def mkSeg (cs : List Char) : Seg :=
  if cs = ['*', '*'] then .globstar
  else .seg (cs.map fun c => if c = '*' then .star else .lit c)

/-! ## Errors

`GlobError` wraps `ignore::Error`; the variants modelled here are the ones
the claims mention: an I/O error, a glob-syntax error carrying the
offending pattern text, a wrapped error annotated with a path, and the
catch-all `InvalidDefinition`. -/

/-- The kind of a `std::io::Error`. -/
inductive IOErrorKind where
  | notFound
  | permissionDenied
  | other
deriving DecidableEq, Repr

/-- A `std::io::Error`: its kind plus the payload (OS error code and
message) that distinguishes one concrete error from another. -/
structure IOError where
  kind : IOErrorKind
  osCode : Option Nat
  msg : String
deriving DecidableEq, Repr

/-- The `std::io::Error` produced by `std::io::ErrorKind::Other.into()`:
only the kind is carried, every other detail is lost. -/
def otherIoError : IOError := ⟨.other, none, ""⟩

/-- The modelled variants of `ignore::Error`. -/
inductive IgnoreError where
  | io (e : IOError)
  | globE (glob : Option String) (err : String)
  | withPath (path : List String) (err : IgnoreError)
  | invalidDefinition
deriving DecidableEq, Repr

/-- `GlobError` (`pub struct GlobError(ignore::Error)`). -/
structure GlobError where
  inner : IgnoreError
deriving DecidableEq, Repr

/-- The `From<GlobError> for std::io::Error` conversion: a directly
wrapped `ignore::Error::Io` is returned as is; every other shape becomes
`std::io::ErrorKind::Other.into()`. -/
def ioErrorOfGlobError : GlobError → IOError
  | ⟨.io e⟩ => e
  | ⟨.globE _ _⟩ => otherIoError
  | ⟨.withPath _ _⟩ => otherIoError
  | ⟨.invalidDefinition⟩ => otherIoError

/-! ## Pattern compilation (the `ignore` gitignore builder)

`OverrideBuilder::add` delegates to `GitignoreBuilder::add_line`, which:
strips a leading `!` (marking the glob as a gitignore whitelist glob),
strips a leading `/` (anchoring the glob), records a trailing `/` as
"directory-only", prepends `**/` when the pattern contains no `/` so that
it matches basenames at any level, appends `/*` when the pattern ends in
`/**`, and then compiles with `literal_separator(true)`. -/

/-- A compiled gitignore glob: whether the user pattern was negated
(`!`-prefixed, a gitignore whitelist glob), whether it only applies to
directories (trailing `/`), the case-sensitivity it was compiled with, and
the expanded alternatives. -/
structure CGlob where
  isWhitelist : Bool
  onlyDir : Bool
  ci : Bool
  alts : List (List Seg)
deriving DecidableEq, Repr

/-- Build-time configuration relevant to pattern compilation: the
`case_insensitive` flag. -/
structure GlobCfg where
  ci : Bool
deriving DecidableEq, Repr

/-- Does a compiled glob match a relative path?  The root's relative path
(the empty component list) corresponds to the empty candidate string,
which `globset`'s regexes treat as a single empty basename. -/
def cglobMatches (g : CGlob) (rel : List String) : Bool :=
  g.alts.any fun segs => segsMatch g.ci segs (if rel.isEmpty then [""] else rel)

/-- Is a pattern string negated (`!`-prefixed)? -/
def patternNegated (p : String) : Bool :=
  match p.toList with
  | '!' :: _ => true
  | _ => false

/-- Remove the leading `!` marking negation, if any. -/
def stripNeg (cs : List Char) : List Char :=
  match cs with
  | '!' :: t => t
  | _ => cs

/-- Does the pattern (after negation stripping) start with `/`, anchoring
it at the base directory? -/
def isAbsolutePat (cs : List Char) : Bool :=
  match cs with
  | '/' :: _ => true
  | _ => false

/-- Remove the leading anchoring `/`, if any. -/
def stripAbs (cs : List Char) : List Char :=
  match cs with
  | '/' :: t => t
  | _ => cs

/-- A trailing `/` marks a directory-only glob. -/
def patternOnlyDir (p : String) : Bool :=
  (stripAbs (stripNeg p.toList)).getLast? = some '/'

/-- The glob text actually compiled, after `add_line`'s rewrites: strip
`!` and a leading `/`, drop a trailing `/`, prepend `**/` when the
pattern is not anchored and contains no `/` (so it matches basenames at
any level), and turn a trailing `/**` into `/**/*`. -/
def actualChars (p : String) : List Char :=
  let cs2 := stripAbs (stripNeg p.toList)
  let cs3 := if cs2.getLast? = some '/' then cs2.dropLast else cs2
  let a1 :=
    if !isAbsolutePat (stripNeg p.toList) && !cs3.contains '/' && cs3 ≠ ['*', '*'] then
      '*' :: '*' :: '/' :: cs3
    else cs3
  if a1.length ≥ 3 && a1.drop (a1.length - 3) = ['/', '*', '*'] then a1 ++ ['/', '*']
  else a1

/-- Compile one pattern string, mirroring `GitignoreBuilder::add_line`
plus `globset` glob parsing.  Errors carry the offending pattern text. -/
def compilePattern (cfg : GlobCfg) (pat : String) : Except IgnoreError CGlob :=
  match expandBraces (actualChars pat) with
  | .error msg => .error (.globE (some pat) msg)
  | .ok alts =>
      .ok { isWhitelist := patternNegated pat, onlyDir := patternOnlyDir pat,
            ci := cfg.ci,
            alts := alts.map fun a => (splitOnSlash a).map mkSeg }

/-! ## The Override matcher (`ignore::overrides`)

`Override::matched` evaluates the underlying gitignore matcher — whose
verdict is that of the last glob that applies to the path — and inverts
it, so that a plain pattern whitelists and a `!` pattern ignores.  When no
glob applies, the path is not a directory, and at least one plain pattern
exists, the path is reported as ignored. -/

/-- A match verdict: include, exclude, or no opinion. -/
inductive MatchV where
  | whitelist
  | ignore
  | none
deriving DecidableEq, Repr

/-- Does a glob apply to a path?  A directory-only glob never applies to a
non-directory (`!glob.is_only_dir() || is_dir`). -/
def cglobApplies (g : CGlob) (rel : List String) (isDir : Bool) : Bool :=
  (!g.onlyDir || isDir) && cglobMatches g rel

/-- Scan a glob list (given in reverse declaration order) for the first
glob that applies; its gitignore sense is the verdict. -/
def scanRev : List CGlob → List String → Bool → MatchV
  | [], _, _ => .none
  | g :: gs, rel, isDir =>
      if cglobApplies g rel isDir then
        (if g.isWhitelist then .whitelist else .ignore)
      else scanRev gs rel isDir

/-- `Gitignore::matched`: the verdict of the last declared glob that
applies to the path. -/
def gitignoreMatched (gs : List CGlob) (rel : List String) (isDir : Bool) : MatchV :=
  scanRev gs.reverse rel isDir

/-- `Match::invert`. -/
def invertM : MatchV → MatchV
  | .whitelist => .ignore
  | .ignore => .whitelist
  | .none => .none

/-- The compiled override matcher: the base directory it is anchored at
(`Override::path`) and the globs in declaration order. -/
structure Override where
  base : List String
  globs : List CGlob
deriving DecidableEq, Repr

/-- The number of non-negated user patterns (`Override::num_whitelists`,
which counts the underlying gitignore's ignore globs). -/
def numPlain (ov : Override) : Nat :=
  ov.globs.countP fun g => !g.isWhitelist

/-- `Override::matched` on a path relative to the base directory. -/
def overrideMatched (ov : Override) (rel : List String) (isDir : Bool) : MatchV :=
  if ov.globs.isEmpty then .none
  else
    let m := invertM (gitignoreMatched ov.globs rel isDir)
    if m = .none ∧ 0 < numPlain ov ∧ isDir = false then .ignore else m

/-- The builder's loop over `builder.add(pattern)?`: compile each pattern
in order, aborting on the first malformed one. -/
def compileGlobs (cfg : GlobCfg) : List String → Except IgnoreError (List CGlob)
  | [] => .ok []
  | p :: ps =>
      match compilePattern cfg p with
      | .error e => .error e
      | .ok g =>
          match compileGlobs cfg ps with
          | .error e => .error e
          | .ok gs => .ok (g :: gs)

/-- `GlobWalkerBuilder::build`, restricted to its pattern-compilation
content: set case sensitivity (which cannot fail), add every pattern in
order — aborting on the first malformed one — and produce the compiled
override.  The final `OverrideBuilder::build` step never fails on
successfully added globs. -/
def compileOverride (base : List String) (cfg : GlobCfg) (pats : List String) :
    Except GlobError Override :=
  match compileGlobs cfg pats with
  | .error e => .error ⟨e⟩
  | .ok globs => .ok ⟨base, globs⟩

/-! ## The directory tree and the `walkdir` collaborator

A directory's children are modelled as a sibling-chained forest, so that
every function over trees is plain structural recursion.  An `err` node
stands for an entry the underlying traversal fails to read: `walkdir`
yields an error at its position and continues with the siblings.

`walkdir`'s iterator state is a stack of open directory listings.
Yielding a directory pushes its listing immediately (as `walkdir` does),
a listing whose depth exceeds `max_depth` is popped without yielding
anything, and `skip_current_dir` pops the most recently pushed listing.
The configuration modelled is the builder's default apart from
`max_depth`: `min_depth = 0`, no sorting, `contents_first = false`. -/

/-- A forest of filesystem nodes: files, unreadable entries, and
directories with their own child forest, chained with their siblings. -/
inductive FS where
  | nil
  | file (name : String) (rest : FS)
  | err (name : String) (rest : FS)
  | dir (name : String) (children : FS) (rest : FS)
deriving DecidableEq, Repr

/-- A yielded directory entry: its full path, whether it is a directory,
and its depth below the traversal root. -/
structure Entry where
  path : List String
  isDir : Bool
  depth : Nat
deriving DecidableEq, Repr

/-- One item of the walker's output sequence
(`Result<DirEntry, WalkError>`). -/
inductive WalkItem where
  | ok (e : Entry)
  | error (msg : String)
deriving DecidableEq, Repr

/-- One open directory listing: the full path of the directory being
listed, the depth of the entries it contains, and the nodes not yet
yielded. -/
structure Frame where
  dirPath : List String
  depth : Nat
  rest : FS
deriving DecidableEq, Repr

/-- The walker's traversal cursor: the stack of open listings, most
recently opened first. -/
abbrev Frames := List Frame

/-- Does `depth` exceed the configured maximum (`none` = unlimited)? -/
def depthExceeds (maxd : Option Nat) (d : Nat) : Bool :=
  match maxd with
  | none => false
  | some m => m < d

/-- `walkdir::IntoIter::next`: pop exhausted or too-deep listings, then
yield the first pending node of the top listing; a directory's listing is
pushed before the directory entry is returned. -/
def wdNext (maxd : Option Nat) : Frames → Option (WalkItem × Frames)
  | [] => none
  | ⟨p, d, r⟩ :: stack =>
      if depthExceeds maxd d then wdNext maxd stack
      else
        match r with
        | .nil => wdNext maxd stack
        | .file nm rest => some (.ok ⟨p ++ [nm], false, d⟩, ⟨p, d, rest⟩ :: stack)
        | .err nm rest => some (.error nm, ⟨p, d, rest⟩ :: stack)
        | .dir nm kids rest =>
            some (.ok ⟨p ++ [nm], true, d⟩,
                  ⟨p ++ [nm], d + 1, kids⟩ :: ⟨p, d, rest⟩ :: stack)

/-- `walkdir::IntoIter::skip_current_dir`: drop the most recently opened
listing. -/
def skipCurrentDir (fs : Frames) : Frames :=
  fs.tail

/-- The number of nodes in a forest. -/
def fsSize : FS → Nat
  | .nil => 0
  | .file _ r => fsSize r + 1
  | .err _ r => fsSize r + 1
  | .dir _ kids r => fsSize kids + fsSize r + 1

/-- The number of nodes pending in the whole cursor. -/
def framesSize (fs : Frames) : Nat :=
  (fs.map fun fr => fsSize fr.rest).sum

/-- The initial cursor for base directory `pre ++ [nm]` with contents
`kids`: the root directory itself is the single pending node at depth 0,
exactly as `walkdir` yields its root first. -/
def initFrames (pre : List String) (nm : String) (kids : FS) : Frames :=
  [⟨pre, 0, .dir nm kids .nil⟩]

/-! ## `GlobWalker::next`

The iterator pulls entries from the underlying walker; an error is
returned as is; an `Ok` entry has the base stripped from its path
(`strip_prefix(..).unwrap()` — `GStep.panicked` models the panic of
`unwrap` on a path not under the base) and is matched: `Whitelist` is
returned, an ignored directory makes the walker skip the directory just
yielded, and everything else is silently passed over.

`globNextI` additionally returns the list of `Ok` entries it consumed
from the underlying walker — instrumentation used to state the pruning
claims; the returned step itself is the faithful translation. -/

/-- `Path::strip_prefix`: remove `base` from the front of a path. -/
def stripBase : List String → List String → Option (List String)
  | [], p => some p
  | _ :: _, [] => none
  | b :: bs, c :: cs => if b = c then stripBase bs cs else none

/-- The outcome of one `GlobWalker::next` call. -/
inductive GStep where
  | done
  | panicked
  | yield (it : WalkItem) (fs : Frames)
deriving Repr

theorem wdNext_size {maxd : Option Nat} :
    ∀ {fs : Frames} {it : WalkItem} {fs' : Frames},
      wdNext maxd fs = some (it, fs') → framesSize fs' < framesSize fs := by
  intro fs
  induction fs with
  | nil => intro it fs' h; simp [wdNext] at h
  | cons fr stack ih =>
      intro it fs' h
      obtain ⟨p, d, r⟩ := fr
      cases r with
      | nil =>
          rw [wdNext.eq_def] at h
          simp only at h
          split at h
          · have := ih h
            simp only [framesSize, List.map_cons, List.sum_cons, fsSize] at *
            omega
          · have := ih h
            simp only [framesSize, List.map_cons, List.sum_cons, fsSize] at *
            omega
      | file nm rest =>
          rw [wdNext.eq_def] at h
          simp only at h
          split at h
          · have := ih h
            simp only [framesSize, List.map_cons, List.sum_cons, fsSize] at *
            omega
          · simp only [Option.some.injEq, Prod.mk.injEq] at h
            obtain ⟨-, h2⟩ := h
            subst h2
            simp [framesSize, fsSize]
      | err nm rest =>
          rw [wdNext.eq_def] at h
          simp only at h
          split at h
          · have := ih h
            simp only [framesSize, List.map_cons, List.sum_cons, fsSize] at *
            omega
          · simp only [Option.some.injEq, Prod.mk.injEq] at h
            obtain ⟨-, h2⟩ := h
            subst h2
            simp [framesSize, fsSize]
      | dir nm kids rest =>
          rw [wdNext.eq_def] at h
          simp only at h
          split at h
          · have := ih h
            simp only [framesSize, List.map_cons, List.sum_cons, fsSize] at *
            omega
          · simp only [Option.some.injEq, Prod.mk.injEq] at h
            obtain ⟨-, h2⟩ := h
            subst h2
            simp [framesSize, fsSize]
            omega

theorem skipCurrentDir_size (fs : Frames) :
    framesSize (skipCurrentDir fs) ≤ framesSize fs := by
  cases fs with
  | nil => simp [skipCurrentDir]
  | cons fr rest => simp [skipCurrentDir, framesSize]

/-- One `GlobWalker::next` call, instrumented with the `Ok` entries it
pulled from the underlying walker. -/
def globNextI (ov : Override) (maxd : Option Nat) (fs : Frames) :
    List Entry × GStep :=
  match h : wdNext maxd fs with
  | none => ([], .done)
  | some (.error msg, fs') => ([], .yield (.error msg) fs')
  | some (.ok e, fs') =>
      match stripBase ov.base e.path with
      | none => ([e], .panicked)
      | some rel =>
          match overrideMatched ov rel e.isDir with
          | .whitelist => ([e], .yield (.ok e) fs')
          | .ignore =>
              if e.isDir then
                let r := globNextI ov maxd (skipCurrentDir fs')
                (e :: r.1, r.2)
              else
                let r := globNextI ov maxd fs'
                (e :: r.1, r.2)
          | .none =>
              let r := globNextI ov maxd fs'
              (e :: r.1, r.2)
termination_by framesSize fs
decreasing_by
  all_goals first
    | exact Nat.lt_of_le_of_lt (skipCurrentDir_size _) (wdNext_size h)
    | exact wdNext_size h

theorem globNextI_sizeAux {ov : Override} {maxd : Option Nat} :
    ∀ (n : Nat) (fs : Frames), framesSize fs = n →
      ∀ {vs : List Entry} {it : WalkItem} {fs' : Frames},
        globNextI ov maxd fs = (vs, .yield it fs') → framesSize fs' < framesSize fs := by
  intro n
  induction n using Nat.strong_induction_on with
  | _ n ih =>
    intro fs hn vs it fs' h
    rw [globNextI] at h
    split at h
    · simp at h
    · rename_i msg fs1 hw
      simp only [Prod.mk.injEq, GStep.yield.injEq] at h
      obtain ⟨-, -, h3⟩ := h
      subst h3
      exact wdNext_size hw
    · rename_i e fs1 hw
      split at h
      · simp at h
      · rename_i rel hs
        split at h
        · simp only [Prod.mk.injEq, GStep.yield.injEq] at h
          obtain ⟨-, -, h3⟩ := h
          subst h3
          exact wdNext_size hw
        · split at h
          · simp only [Prod.mk.injEq] at h
            obtain ⟨-, h2⟩ := h
            have hlt : framesSize (skipCurrentDir fs1) < n := by
              have := Nat.lt_of_le_of_lt (skipCurrentDir_size fs1) (wdNext_size hw)
              omega
            have h3 : globNextI ov maxd (skipCurrentDir fs1) =
                ((globNextI ov maxd (skipCurrentDir fs1)).1, GStep.yield it fs') := by
              rw [← h2]
            have := ih _ hlt (skipCurrentDir fs1) rfl h3
            have h4 := Nat.lt_of_le_of_lt (skipCurrentDir_size fs1) (wdNext_size hw)
            omega
          · simp only [Prod.mk.injEq] at h
            obtain ⟨-, h2⟩ := h
            have hlt : framesSize fs1 < n := by
              have := wdNext_size hw
              omega
            have h3 : globNextI ov maxd fs1 =
                ((globNextI ov maxd fs1).1, GStep.yield it fs') := by
              rw [← h2]
            have := ih _ hlt fs1 rfl h3
            have h4 := wdNext_size hw
            omega
        · simp only [Prod.mk.injEq] at h
          obtain ⟨-, h2⟩ := h
          have hlt : framesSize fs1 < n := by
            have := wdNext_size hw
            omega
          have h3 : globNextI ov maxd fs1 =
              ((globNextI ov maxd fs1).1, GStep.yield it fs') := by
            rw [← h2]
          have := ih _ hlt fs1 rfl h3
          have h4 := wdNext_size hw
          omega

theorem globNextI_size {ov : Override} {maxd : Option Nat} {fs : Frames}
    {vs : List Entry} {it : WalkItem} {fs' : Frames}
    (h : globNextI ov maxd fs = (vs, .yield it fs')) :
    framesSize fs' < framesSize fs :=
  globNextI_sizeAux (framesSize fs) fs rfl h

/-- Exhaust the iterator: the full output sequence together with the
instrumentation's list of all `Ok` entries pulled from the underlying
walker. -/
def globRunI (ov : Override) (maxd : Option Nat) (fs : Frames) :
    List WalkItem × List Entry :=
  match h : globNextI ov maxd fs with
  | (vs, .done) => ([], vs)
  | (vs, .panicked) => ([], vs)
  | (vs, .yield it fs') =>
      let r := globRunI ov maxd fs'
      (it :: r.1, vs ++ r.2)
termination_by framesSize fs
decreasing_by
  exact globNextI_size h

/-- The output sequence of the walker started on cursor `fs`. -/
def globOut (ov : Override) (maxd : Option Nat) (fs : Frames) : List WalkItem :=
  (globRunI ov maxd fs).1

/-- All `Ok` entries the underlying walker produced during the run. -/
def globVis (ov : Override) (maxd : Option Nat) (fs : Frames) : List Entry :=
  (globRunI ov maxd fs).2

/-! ## Denotations

Structural-recursion companions of the machine: the output and the list of
visited entries of the walk over a forest, plus the cursor well-formedness
that makes the machine agree with them (every pending node's path is the
matcher's base followed by its relative path, whose length is the node's
depth — the contract of the underlying walker). -/

/-- The verdict the walker computes for a full path. -/
def verdictAt (ov : Override) (path : List String) (isDir : Bool) : MatchV :=
  match stripBase ov.base path with
  | some rel => overrideMatched ov rel isDir
  | Option.none => .none

/-- The walker's output over a pending forest whose nodes live in
directory `p` at depth `d`. -/
def denFS (ov : Override) (maxd : Option Nat) : List String → Nat → FS → List WalkItem
  | _, _, .nil => []
  | p, d, .file nm r =>
      (if verdictAt ov (p ++ [nm]) false = .whitelist
       then [.ok ⟨p ++ [nm], false, d⟩] else []) ++ denFS ov maxd p d r
  | p, d, .err nm r => .error nm :: denFS ov maxd p d r
  | p, d, .dir nm kids r =>
      (match verdictAt ov (p ++ [nm]) true with
       | .ignore => []
       | v =>
           (if v = .whitelist then [.ok ⟨p ++ [nm], true, d⟩] else []) ++
           (if depthExceeds maxd (d + 1) then [] else denFS ov maxd (p ++ [nm]) (d + 1) kids))
      ++ denFS ov maxd p d r

/-- The `Ok` entries the underlying walker yields over a pending forest. -/
def visFS (ov : Override) (maxd : Option Nat) : List String → Nat → FS → List Entry
  | _, _, .nil => []
  | p, d, .file nm r => ⟨p ++ [nm], false, d⟩ :: visFS ov maxd p d r
  | p, d, .err nm r => visFS ov maxd p d r
  | p, d, .dir nm kids r =>
      ⟨p ++ [nm], true, d⟩ ::
      ((match verdictAt ov (p ++ [nm]) true with
        | .ignore => []
        | _ =>
            if depthExceeds maxd (d + 1) then []
            else visFS ov maxd (p ++ [nm]) (d + 1) kids)
       ++ visFS ov maxd p d r)

/-- The denotation of one open listing: empty when its depth exceeds the
maximum (the machine pops such a listing without yielding anything). -/
def frameDen (ov : Override) (maxd : Option Nat) (fr : Frame) : List WalkItem :=
  if depthExceeds maxd fr.depth then [] else denFS ov maxd fr.dirPath fr.depth fr.rest

/-- The visited entries of one open listing. -/
def frameVis (ov : Override) (maxd : Option Nat) (fr : Frame) : List Entry :=
  if depthExceeds maxd fr.depth then [] else visFS ov maxd fr.dirPath fr.depth fr.rest

/-- The denotation of the whole cursor. -/
def framesDen (ov : Override) (maxd : Option Nat) (fs : Frames) : List WalkItem :=
  (fs.map (frameDen ov maxd)).flatten

/-- The visited entries of the whole cursor. -/
def framesVis (ov : Override) (maxd : Option Nat) (fs : Frames) : List Entry :=
  (fs.map (frameVis ov maxd)).flatten

/-- The top-level names of a forest that give rise to path-stripped
entries (files and directories; an unreadable entry only produces an
error value, whose path is never stripped). -/
def fsTopNames : FS → List String
  | .nil => []
  | .file nm r => nm :: fsTopNames r
  | .err _ r => fsTopNames r
  | .dir nm _ r => nm :: fsTopNames r

/-- Well-formedness of one listing with respect to the matcher's base:
every entry it can yield has the base as a path prefix and its relative
path has length equal to the listing's depth. -/
def frameOk (base : List String) (fr : Frame) : Bool :=
  (fsTopNames fr.rest).all fun nm =>
    match stripBase base (fr.dirPath ++ [nm]) with
    | some rel => rel.length == fr.depth
    | none => false

/-- Well-formedness of the whole cursor. -/
def framesOk (base : List String) (fs : Frames) : Bool :=
  fs.all (frameOk base)

/-! ## Pattern-level and claim-level vocabulary -/

/-- Does the pattern, once compiled, apply to the given relative path
(with the given directory flag)?  A malformed pattern applies to
nothing. -/
def patternApplies (cfg : GlobCfg) (p : String) (rel : List String) (isDir : Bool) : Bool :=
  match compilePattern cfg p with
  | .ok g => cglobApplies g rel isDir
  | .error _ => false

/-- Is a file at this relative path included by the matcher? -/
def fileWhitelisted (ov : Override) (r : List String) : Bool :=
  match overrideMatched ov r false with
  | .whitelist => true
  | _ => false

/-- The relative paths of all files in a forest whose own directory has
relative path `rp`. -/
def filesUnderRel (rp : List String) : FS → List (List String)
  | .nil => []
  | .file nm r => (rp ++ [nm]) :: filesUnderRel rp r
  | .err _ r => filesUnderRel rp r
  | .dir nm kids r => filesUnderRel (rp ++ [nm]) kids ++ filesUnderRel rp r

/-- Modelled from the spec: what the Pruning Walker does in one traversal
step — whether the current entry is emitted and whether it is descended
into. -/
structure StepAct where
  emits : Bool
  descends : Bool
deriving DecidableEq, Repr

/-- Modelled from the spec: the per-step table for a directory entry —
whitelist emits and still descends, ignore skips the whole subtree,
no-opinion descends without emitting. -/
def specStepDir : MatchV → StepAct
  | .whitelist => ⟨true, true⟩
  | .ignore => ⟨false, false⟩
  | .none => ⟨false, true⟩

/-- Modelled from the spec: the per-step table for a file entry —
whitelist emits, everything else is silently passed over. -/
def specStepFile : MatchV → StepAct
  | .whitelist => ⟨true, false⟩
  | .ignore => ⟨false, false⟩
  | .none => ⟨false, false⟩

/-- The directory tree of the `test_blacklist_dir` scenario: three
top-level images and a `Pictures` directory holding three more. -/
def picTree : FS :=
  .file "a.png" (.file "b.png" (.file "c.png" (.dir "Pictures"
    (.file "a.png" (.file "b.png" (.file "c.png" .nil))) .nil)))

/-- The directory tree of the negation-precedence scenario: `hello.rs`
and `world.rs` at top level. -/
def rsTree : FS :=
  .file "hello.rs" (.file "world.rs" .nil)

/-- The compiled rule set of `["*.{png,jpg,gif}", "!Pictures"]` at base
`tmp/base`; claim C3 checks it against `compileOverride`. -/
def c3Ov : Override :=
  ⟨["tmp", "base"],
   [⟨false, false, false,
     [[.globstar, .seg (.star :: ".png".toList.map .lit)],
      [.globstar, .seg (.star :: ".jpg".toList.map .lit)],
      [.globstar, .seg (.star :: ".gif".toList.map .lit)]]⟩,
    ⟨true, false, false, [[.globstar, .seg ("Pictures".toList.map .lit)]]⟩]⟩

/-- The compiled rule set of `["*.rs", "!world.rs"]` at base `tmp/base`;
claim C4 checks it against `compileOverride`. -/
def c4Ov : Override :=
  ⟨["tmp", "base"],
   [⟨false, false, false, [[.globstar, .seg (.star :: ".rs".toList.map .lit)]]⟩,
    ⟨true, false, false, [[.globstar, .seg ("world.rs".toList.map .lit)]]⟩]⟩

/-- The compiled rule set of `["*"]` at base `tmp/base`; claim C8's
counterexample checks it against `compileOverride`. -/
def c8Ov : Override :=
  ⟨["tmp", "base"], [⟨false, false, false, [[.globstar, .seg [.star]]]⟩]⟩

/-! ## Basic lemmas about paths and cursors -/

theorem stripBase_append (b r : List String) : stripBase b (b ++ r) = some r := by
  induction b with
  | nil => simp [stripBase]
  | cons x xs ih => simp [stripBase, ih]

theorem stripBase_some {b p r : List String} (h : stripBase b p = some r) :
    p = b ++ r := by
  induction b generalizing p with
  | nil => simp [stripBase] at h; simp [h]
  | cons x xs ih =>
      cases p with
      | nil => simp [stripBase] at h
      | cons y ys =>
          simp only [stripBase] at h
          split at h
          · rename_i hxy
            subst hxy
            simp [ih h]
          · exact absurd h (by simp)

theorem stripBase_snoc {b p r : List String} (h : stripBase b p = some r) (x : String) :
    stripBase b (p ++ [x]) = some (r ++ [x]) := by
  rw [stripBase_some h, List.append_assoc]
  exact stripBase_append b (r ++ [x])

theorem framesOk_cons {b : List String} {fr : Frame} {st : Frames} :
    framesOk b (fr :: st) = (frameOk b fr && framesOk b st) := by
  simp [framesOk]

theorem framesDen_cons (ov : Override) (maxd : Option Nat) (fr : Frame) (st : Frames) :
    framesDen ov maxd (fr :: st) = frameDen ov maxd fr ++ framesDen ov maxd st := by
  simp [framesDen]

theorem framesVis_cons (ov : Override) (maxd : Option Nat) (fr : Frame) (st : Frames) :
    framesVis ov maxd (fr :: st) = frameVis ov maxd fr ++ framesVis ov maxd st := by
  simp [framesVis]

theorem frameOk_file {b p : List String} {d : Nat} {nm : String} {r : FS}
    (h : frameOk b ⟨p, d, .file nm r⟩ = true) :
    (∃ rel, stripBase b (p ++ [nm]) = some rel ∧ rel.length = d) ∧
      frameOk b ⟨p, d, r⟩ = true := by
  simp only [frameOk, fsTopNames, List.all_cons, Bool.and_eq_true] at h ⊢
  obtain ⟨h1, h2⟩ := h
  refine ⟨?_, h2⟩
  revert h1
  split
  · rename_i rel hrel
    intro h1
    exact ⟨rel, hrel, by simpa using h1⟩
  · intro h1; simp at h1

theorem frameOk_err {b p : List String} {d : Nat} {nm : String} {r : FS}
    (h : frameOk b ⟨p, d, .err nm r⟩ = true) : frameOk b ⟨p, d, r⟩ = true := by
  simpa only [frameOk, fsTopNames] using h

theorem frameOk_dir {b p : List String} {d : Nat} {nm : String} {kids r : FS}
    (h : frameOk b ⟨p, d, .dir nm kids r⟩ = true) :
    (∃ rel, stripBase b (p ++ [nm]) = some rel ∧ rel.length = d) ∧
      frameOk b ⟨p, d, r⟩ = true ∧
      frameOk b ⟨p ++ [nm], d + 1, kids⟩ = true := by
  simp only [frameOk, fsTopNames, List.all_cons, Bool.and_eq_true] at h
  obtain ⟨h1, h2⟩ := h
  have hrel : ∃ rel, stripBase b (p ++ [nm]) = some rel ∧ rel.length = d := by
    revert h1
    split
    · rename_i rel hrel
      intro h1
      exact ⟨rel, hrel, by simpa using h1⟩
    · intro h1; simp at h1
  refine ⟨hrel, h2, ?_⟩
  obtain ⟨rel, hs, hl⟩ := hrel
  simp only [frameOk, List.all_eq_true]
  intro k hk
  rw [stripBase_snoc hs k]
  simp [hl]

/-! ## Agreement of the machine with the denotations -/

/-- What one step of the underlying walker does to the cursor's
denotation, stated for each shape of the yielded item.  For an `Ok` entry
the base strips off (the walker's contract), and the denotation loses
exactly the emitted item — where, for an ignored directory, the cursor
obtained by `skip_current_dir` carries the remaining denotation and the
directory's subtree is gone. -/
theorem wdNext_den {ov : Override} {maxd : Option Nat} :
    ∀ fs : Frames, framesOk ov.base fs = true →
      (match wdNext maxd fs with
       | none => framesDen ov maxd fs = [] ∧ framesVis ov maxd fs = []
       | some (.error msg, fs') =>
           framesOk ov.base fs' = true ∧
           framesDen ov maxd fs = .error msg :: framesDen ov maxd fs' ∧
           framesVis ov maxd fs = framesVis ov maxd fs'
       | some (.ok e, fs') =>
           framesOk ov.base fs' = true ∧
           framesOk ov.base (skipCurrentDir fs') = true ∧
           ∃ rel, stripBase ov.base e.path = some rel ∧ rel.length = e.depth ∧
             (if e.isDir = true ∧ overrideMatched ov rel e.isDir = .ignore then
                framesDen ov maxd fs = framesDen ov maxd (skipCurrentDir fs') ∧
                framesVis ov maxd fs = e :: framesVis ov maxd (skipCurrentDir fs')
              else
                framesDen ov maxd fs =
                  (if overrideMatched ov rel e.isDir = .whitelist then [.ok e] else [])
                    ++ framesDen ov maxd fs' ∧
                framesVis ov maxd fs = e :: framesVis ov maxd fs')) := by
  intro fs
  induction fs with
  | nil =>
      intro _
      simp [wdNext, framesDen, framesVis]
  | cons fr stack ih =>
      intro hok
      obtain ⟨p, d, r⟩ := fr
      rw [framesOk_cons, Bool.and_eq_true] at hok
      obtain ⟨hfr, hst⟩ := hok
      by_cases hd : depthExceeds maxd d = true
      · -- the listing is too deep: it is popped, its denotation is empty
        have hstep : wdNext maxd (⟨p, d, r⟩ :: stack) = wdNext maxd stack := by
          rw [wdNext.eq_def]; simp [hd]
        have hden : framesDen ov maxd (⟨p, d, r⟩ :: stack) = framesDen ov maxd stack := by
          rw [framesDen_cons]; simp [frameDen, hd]
        have hvis : framesVis ov maxd (⟨p, d, r⟩ :: stack) = framesVis ov maxd stack := by
          rw [framesVis_cons]; simp [frameVis, hd]
        rw [hstep, hden, hvis]
        exact ih hst
      · have hd' : depthExceeds maxd d = false := by
          simpa using hd
        cases r with
        | nil =>
            have hstep : wdNext maxd (⟨p, d, .nil⟩ :: stack) = wdNext maxd stack := by
              rw [wdNext.eq_def]; simp [hd']
            have hden : framesDen ov maxd (⟨p, d, .nil⟩ :: stack) = framesDen ov maxd stack := by
              rw [framesDen_cons]; simp [frameDen, denFS]
            have hvis : framesVis ov maxd (⟨p, d, .nil⟩ :: stack) = framesVis ov maxd stack := by
              rw [framesVis_cons]; simp [frameVis, visFS]
            rw [hstep, hden, hvis]
            exact ih hst
        | file nm rest =>
            obtain ⟨⟨rel, hs, hl⟩, hfr'⟩ := frameOk_file hfr
            have hstep : wdNext maxd (⟨p, d, .file nm rest⟩ :: stack) =
                some (.ok ⟨p ++ [nm], false, d⟩, ⟨p, d, rest⟩ :: stack) := by
              rw [wdNext.eq_def]; simp [hd']
            rw [hstep]
            refine ⟨?_, ?_, rel, hs, hl, ?_⟩
            · rw [framesOk_cons, hfr', hst]; rfl
            · show framesOk ov.base (skipCurrentDir (⟨p, d, rest⟩ :: stack)) = true
              simpa [skipCurrentDir] using hst
            · simp only [Bool.false_eq_true, false_and, if_false]
              constructor
              · simp [framesDen_cons, frameDen, hd', denFS, verdictAt, hs,
                  List.append_assoc]
              · simp [framesVis_cons, frameVis, hd', visFS]
        | err nm rest =>
            have hfr' := frameOk_err hfr
            have hstep : wdNext maxd (⟨p, d, .err nm rest⟩ :: stack) =
                some (.error nm, ⟨p, d, rest⟩ :: stack) := by
              rw [wdNext.eq_def]; simp [hd']
            rw [hstep]
            refine ⟨?_, ?_, ?_⟩
            · rw [framesOk_cons, hfr', hst]; rfl
            · simp [framesDen_cons, frameDen, hd', denFS]
            · simp [framesVis_cons, frameVis, hd', visFS]
        | dir nm kids rest =>
            obtain ⟨⟨rel, hs, hl⟩, hfr', hkids⟩ := frameOk_dir hfr
            have hstep : wdNext maxd (⟨p, d, .dir nm kids rest⟩ :: stack) =
                some (.ok ⟨p ++ [nm], true, d⟩,
                      ⟨p ++ [nm], d + 1, kids⟩ :: ⟨p, d, rest⟩ :: stack) := by
              rw [wdNext.eq_def]; simp [hd']
            rw [hstep]
            refine ⟨?_, ?_, rel, hs, hl, ?_⟩
            · rw [framesOk_cons, framesOk_cons, hkids, hfr', hst]; rfl
            · show framesOk ov.base (⟨p, d, rest⟩ :: stack) = true
              rw [framesOk_cons, hfr', hst]; rfl
            · by_cases hm : overrideMatched ov rel true = MatchV.ignore
              · rw [if_pos (by simp [hm])]
                constructor
                · simp [skipCurrentDir, framesDen_cons, frameDen, hd', denFS,
                    verdictAt, hs, hm]
                · simp [skipCurrentDir, framesVis_cons, frameVis, hd', visFS,
                    verdictAt, hs, hm]
              · rw [if_neg (by simp [hm])]
                constructor
                · simp only [framesDen_cons, frameDen, hd', Bool.false_eq_true,
                    if_false, denFS, verdictAt, hs]
                  cases hv : overrideMatched ov rel true with
                  | whitelist => simp [List.append_assoc]
                  | ignore => exact absurd hv hm
                  | none => simp [List.append_assoc]
                · simp only [framesVis_cons, frameVis, hd', Bool.false_eq_true,
                    if_false, visFS, verdictAt, hs]
                  cases hv : overrideMatched ov rel true with
                  | whitelist => simp [List.append_assoc]
                  | ignore => exact absurd hv hm
                  | none => simp [List.append_assoc]

/-- What one `GlobWalker::next` call computes, in terms of the
denotations: it never panics on a well-formed cursor, exhaustion means the
denotation is empty, and a yield peels exactly the first denoted item. -/
theorem globNextI_denAux {ov : Override} {maxd : Option Nat} :
    ∀ (n : Nat) (fs : Frames), framesSize fs = n → framesOk ov.base fs = true →
      ∀ (vs : List Entry) (st : GStep), globNextI ov maxd fs = (vs, st) →
        (match st with
         | .done => framesDen ov maxd fs = [] ∧ framesVis ov maxd fs = vs
         | .panicked => False
         | .yield it fs' =>
             framesOk ov.base fs' = true ∧
             framesDen ov maxd fs = it :: framesDen ov maxd fs' ∧
             framesVis ov maxd fs = vs ++ framesVis ov maxd fs') := by
  intro n
  induction n using Nat.strong_induction_on with
  | _ n ih =>
    intro fs hn hok vs st h
    have hw := @wdNext_den ov maxd fs hok
    rw [globNextI] at h
    split at h
    · -- underlying walker exhausted
      rename_i hwn
      rw [hwn] at hw
      simp only [Prod.mk.injEq] at h
      obtain ⟨h1, h2⟩ := h
      subst h1; subst h2
      exact hw
    · -- underlying walker yields an error
      rename_i msg fs1 hwn
      rw [hwn] at hw
      simp only [Prod.mk.injEq] at h
      obtain ⟨h1, h2⟩ := h
      subst h1; subst h2
      simp only []
      obtain ⟨hok1, hden, hvis⟩ := hw
      exact ⟨hok1, hden, by simpa using hvis⟩
    · -- underlying walker yields an entry
      rename_i e fs1 hwn
      rw [hwn] at hw
      obtain ⟨hok1, hokskip, rel, hs, hl, hite⟩ := hw
      split at h
      · -- strip_prefix fails: impossible on a well-formed cursor
        rename_i hnone
        rw [hs] at hnone
        exact absurd hnone (by simp)
      · rename_i rel' hs'
        rw [hs] at hs'
        injection hs' with hrel
        subst hrel
        split at h
        · -- whitelist: the entry is emitted
          rename_i hm
          simp only [Prod.mk.injEq] at h
          obtain ⟨h1, h2⟩ := h
          subst h1; subst h2
          simp only []
          rw [if_neg (by simp [hm])] at hite
          obtain ⟨hden, hvis⟩ := hite
          rw [hm] at hden
          exact ⟨hok1, by simpa using hden, by simpa using hvis⟩
        · -- ignore
          rename_i hm
          split at h
          · -- an ignored directory: skip its subtree, continue
            rename_i hdir
            rw [if_pos ⟨hdir, hm⟩] at hite
            obtain ⟨hden, hvis⟩ := hite
            simp only [Prod.mk.injEq] at h
            obtain ⟨h1, h2⟩ := h
            subst h1; subst h2
            have hlt : framesSize (skipCurrentDir fs1) < n := by
              have h4 := Nat.lt_of_le_of_lt (skipCurrentDir_size fs1) (wdNext_size hwn)
              omega
            have ihr := ih _ hlt (skipCurrentDir fs1) rfl hokskip
              (globNextI ov maxd (skipCurrentDir fs1)).1
              (globNextI ov maxd (skipCurrentDir fs1)).2 rfl
            cases hr : (globNextI ov maxd (skipCurrentDir fs1)).2 with
            | done =>
                rw [hr] at ihr
                simp only []
                exact ⟨hden.trans ihr.1, by rw [hvis, ihr.2]⟩
            | panicked =>
                rw [hr] at ihr
                exact absurd ihr (by simp)
            | yield it2 fs2 =>
                rw [hr] at ihr
                simp only []
                obtain ⟨hok2, hden2, hvis2⟩ := ihr
                exact ⟨hok2, by rw [hden, hden2], by simp [hvis, hvis2]⟩
          · -- an ignored non-directory: silently continue
            rename_i hdir
            rw [if_neg (fun hc => hdir hc.1)] at hite
            obtain ⟨hden, hvis⟩ := hite
            rw [hm] at hden
            simp only [Prod.mk.injEq] at h
            obtain ⟨h1, h2⟩ := h
            subst h1; subst h2
            have hlt : framesSize fs1 < n := by
              have h4 := wdNext_size hwn
              omega
            have ihr := ih _ hlt fs1 rfl hok1
              (globNextI ov maxd fs1).1 (globNextI ov maxd fs1).2 rfl
            cases hr : (globNextI ov maxd fs1).2 with
            | done =>
                rw [hr] at ihr
                simp only []
                have hden' : framesDen ov maxd fs = framesDen ov maxd fs1 := by
                  simpa using hden
                exact ⟨hden'.trans ihr.1, by rw [hvis, ihr.2]⟩
            | panicked =>
                rw [hr] at ihr
                exact absurd ihr (by simp)
            | yield it2 fs2 =>
                rw [hr] at ihr
                simp only []
                obtain ⟨hok2, hden2, hvis2⟩ := ihr
                have hden' : framesDen ov maxd fs = framesDen ov maxd fs1 := by
                  simpa using hden
                exact ⟨hok2, by rw [hden', hden2], by simp [hvis, hvis2]⟩
        · -- no opinion: silently continue
          rename_i hm
          rw [if_neg (by simp [hm])] at hite
          obtain ⟨hden, hvis⟩ := hite
          rw [hm] at hden
          have hden' : framesDen ov maxd fs = framesDen ov maxd fs1 := by
            simpa using hden
          simp only [Prod.mk.injEq] at h
          obtain ⟨h1, h2⟩ := h
          subst h1; subst h2
          have hlt : framesSize fs1 < n := by
            have h4 := wdNext_size hwn
            omega
          have ihr := ih _ hlt fs1 rfl hok1
            (globNextI ov maxd fs1).1 (globNextI ov maxd fs1).2 rfl
          cases hr : (globNextI ov maxd fs1).2 with
          | done =>
              rw [hr] at ihr
              simp only []
              exact ⟨hden'.trans ihr.1, by rw [hvis, ihr.2]⟩
          | panicked =>
              rw [hr] at ihr
              exact absurd ihr (by simp)
          | yield it2 fs2 =>
              rw [hr] at ihr
              simp only []
              obtain ⟨hok2, hden2, hvis2⟩ := ihr
              exact ⟨hok2, by rw [hden', hden2], by simp [hvis, hvis2]⟩

/-- The exhausted iterator's output and visited entries are the cursor's
denotations. -/
theorem globRunI_denAux {ov : Override} {maxd : Option Nat} :
    ∀ (n : Nat) (fs : Frames), framesSize fs = n → framesOk ov.base fs = true →
      globRunI ov maxd fs = (framesDen ov maxd fs, framesVis ov maxd fs) := by
  intro n
  induction n using Nat.strong_induction_on with
  | _ n ih =>
    intro fs hn hok
    rw [globRunI]
    split
    · rename_i vs hg
      have hd := globNextI_denAux (framesSize fs) fs rfl hok vs .done hg
      simp only [] at hd
      rw [hd.1, hd.2]
    · rename_i vs hg
      have hd := globNextI_denAux (framesSize fs) fs rfl hok vs .panicked hg
      exact absurd hd (by simp)
    · rename_i vs it fs1 hg
      have hd := globNextI_denAux (framesSize fs) fs rfl hok vs (.yield it fs1) hg
      simp only [] at hd
      obtain ⟨hok1, hden, hvis⟩ := hd
      have hlt : framesSize fs1 < n := by
        have := globNextI_size hg
        omega
      have ihr := ih _ hlt fs1 rfl hok1
      simp only [ihr, hden, hvis]

/-- Equivalence on well-formed cursors, output component. -/
theorem globOut_den {ov : Override} {maxd : Option Nat} {fs : Frames}
    (hok : framesOk ov.base fs = true) :
    globOut ov maxd fs = framesDen ov maxd fs := by
  unfold globOut
  rw [globRunI_denAux (framesSize fs) fs rfl hok]

/-- Equivalence on well-formed cursors, visited component. -/
theorem globVis_den {ov : Override} {maxd : Option Nat} {fs : Frames}
    (hok : framesOk ov.base fs = true) :
    globVis ov maxd fs = framesVis ov maxd fs := by
  unfold globVis
  rw [globRunI_denAux (framesSize fs) fs rfl hok]

/-- The initial cursor is well-formed for the matcher anchored at the base
directory it was built for. -/
theorem framesOk_init (pre : List String) (nm : String) (kids : FS) :
    framesOk (pre ++ [nm]) (initFrames pre nm kids) = true := by
  have h : stripBase (pre ++ [nm]) (pre ++ [nm]) = some [] := by
    simpa using stripBase_append (pre ++ [nm]) []
  simp [framesOk, initFrames, frameOk, fsTopNames, h]

/-! ## Matcher lemmas -/

theorem scanRev_skip {rel : List String} {isDir : Bool} :
    ∀ {m rest : List CGlob}, (∀ g ∈ m, cglobApplies g rel isDir = false) →
      scanRev (m ++ rest) rel isDir = scanRev rest rel isDir := by
  intro m
  induction m with
  | nil => intro rest _; rfl
  | cons g gs ih =>
      intro rest h
      have hg : cglobApplies g rel isDir = false := h g (by simp)
      simp only [List.cons_append, scanRev, hg, Bool.false_eq_true, if_false]
      exact ih fun g' hg' => h g' (List.mem_cons_of_mem _ hg')

/-- Last-match-wins: the verdict of a rule set on a path is the gitignore
sense of the last declared glob that applies to it. -/
theorem gitignoreMatched_last {rel : List String} {isDir : Bool}
    {l1 l2 : List CGlob} {g : CGlob}
    (hg : cglobApplies g rel isDir = true)
    (h2 : ∀ g' ∈ l2, cglobApplies g' rel isDir = false) :
    gitignoreMatched (l1 ++ g :: l2) rel isDir =
      (if g.isWhitelist then .whitelist else .ignore) := by
  unfold gitignoreMatched
  rw [List.reverse_append, List.reverse_cons, List.append_assoc]
  rw [scanRev_skip fun g' h' => h2 g' (List.mem_reverse.mp h')]
  simp [scanRev, hg]

theorem scanRev_plain {rel : List String} {isDir : Bool} :
    ∀ {m : List CGlob}, (∀ g ∈ m, g.isWhitelist = false) →
      scanRev m rel isDir =
        (if m.any (fun g => cglobApplies g rel isDir) then .ignore else .none) := by
  intro m
  induction m with
  | nil => intro _; rfl
  | cons g gs ih =>
      intro h
      simp only [scanRev, List.any_cons]
      by_cases hg : cglobApplies g rel isDir = true
      · simp [hg, h g (by simp)]
      · have hg' : cglobApplies g rel isDir = false := by simpa using hg
        simp only [hg', Bool.false_eq_true, if_false, Bool.false_or]
        exact ih fun g' m' => h g' (List.mem_cons_of_mem _ m')

theorem numPlain_pos {ov : Override} (hne : ov.globs ≠ [])
    (hall : ∀ g ∈ ov.globs, g.isWhitelist = false) : 0 < numPlain ov := by
  unfold numPlain
  rw [List.countP_eq_length.mpr (by intro g hg; simp [hall g hg])]
  exact List.length_pos.mpr hne

/-- With only plain (non-negated) patterns, the override matcher
whitelists exactly the paths some glob applies to; everything else is
no-opinion for a directory and ignored for a file (when the set is
nonempty). -/
theorem overrideMatched_plain_eq {ov : Override} {rel : List String} {isDir : Bool}
    (hall : ∀ g ∈ ov.globs, g.isWhitelist = false) :
    overrideMatched ov rel isDir =
      (if ov.globs.any (fun g => cglobApplies g rel isDir) then .whitelist
       else if ov.globs.isEmpty then .none
       else if isDir then .none else .ignore) := by
  unfold overrideMatched
  by_cases he : ov.globs.isEmpty
  · have h0 : ov.globs = [] := by simpa using he
    simp [h0]
  · have hne : ov.globs ≠ [] := by simpa using he
    rw [if_neg (by simpa using he)]
    have hgm : gitignoreMatched ov.globs rel isDir =
        (if ov.globs.any (fun g => cglobApplies g rel isDir) then .ignore else .none) := by
      unfold gitignoreMatched
      rw [scanRev_plain fun g hg => hall g (List.mem_reverse.mp hg)]
      rw [List.any_reverse]
    rw [hgm]
    by_cases ha : ov.globs.any (fun g => cglobApplies g rel isDir) = true
    · simp [ha, invertM]
    · have ha' : ov.globs.any (fun g => cglobApplies g rel isDir) = false := by
        simpa using ha
      simp only [ha', Bool.false_eq_true, if_false, invertM]
      have hnp := numPlain_pos hne hall
      cases isDir with
      | false => simp [he, hnp]
      | true => simp [he]

/-! ## Compilation lemmas -/

theorem compilePattern_isWhitelist {cfg : GlobCfg} {p : String} {g : CGlob}
    (h : compilePattern cfg p = .ok g) : g.isWhitelist = patternNegated p := by
  unfold compilePattern at h
  split at h
  · exact absurd h (by simp)
  · simp only [Except.ok.injEq] at h
    subst h
    rfl

theorem compilePattern_error_form {cfg : GlobCfg} {p : String} {e : IgnoreError}
    (h : compilePattern cfg p = .error e) : ∃ m, e = .globE (some p) m := by
  unfold compilePattern at h
  split at h
  · rename_i msg _
    simp only [Except.error.injEq] at h
    exact ⟨msg, h.symm⟩
  · exact absurd h (by simp)

theorem compileGlobs_forall {cfg : GlobCfg} :
    ∀ {ps : List String} {gs : List CGlob}, compileGlobs cfg ps = .ok gs →
      List.Forall₂ (fun p g => compilePattern cfg p = .ok g) ps gs := by
  intro ps
  induction ps with
  | nil =>
      intro gs h
      simp only [compileGlobs, Except.ok.injEq] at h
      subst h
      exact .nil
  | cons p ps ih =>
      intro gs h
      simp only [compileGlobs] at h
      split at h
      · exact absurd h (by simp)
      · rename_i g hok
        split at h
        · exact absurd h (by simp)
        · rename_i gs' hgs
          simp only [Except.ok.injEq] at h
          subst h
          exact .cons hok (ih hgs)

theorem compileOverride_ok {base : List String} {cfg : GlobCfg} {ps : List String}
    {ov : Override} (h : compileOverride base cfg ps = .ok ov) :
    ov.base = base ∧
      List.Forall₂ (fun p g => compilePattern cfg p = .ok g) ps ov.globs := by
  unfold compileOverride at h
  split at h
  · exact absurd h (by simp)
  · rename_i globs hg
    simp only [Except.ok.injEq] at h
    subst h
    exact ⟨rfl, compileGlobs_forall hg⟩

theorem forall₂_mem_right {α β : Type} {R : α → β → Prop} :
    ∀ {ps : List α} {gs : List β}, List.Forall₂ R ps gs →
      ∀ g ∈ gs, ∃ p ∈ ps, R p g := by
  intro ps gs h
  induction h with
  | nil => intro g hg; simp at hg
  | cons hr hf ih =>
      intro g hg
      rcases List.mem_cons.mp hg with h1 | h2
      · subst h1; exact ⟨_, by simp, hr⟩
      · obtain ⟨p, hp, hpr⟩ := ih g h2
        exact ⟨p, List.mem_cons_of_mem _ hp, hpr⟩

theorem compileOverride_allPlain {base : List String} {cfg : GlobCfg}
    {ps : List String} {ov : Override}
    (h : compileOverride base cfg ps = .ok ov)
    (hneg : ∀ p ∈ ps, patternNegated p = false) :
    ∀ g ∈ ov.globs, g.isWhitelist = false := by
  intro g hg
  obtain ⟨-, hf⟩ := compileOverride_ok h
  obtain ⟨p, hp, hc⟩ := forall₂_mem_right hf g hg
  rw [compilePattern_isWhitelist hc, hneg p hp]

/-! ## Denotation lemmas -/

theorem verdictAt_noGlobs {ov : Override} (h0 : ov.globs = [])
    (path : List String) (isDir : Bool) : verdictAt ov path isDir = .none := by
  unfold verdictAt
  split
  · unfold overrideMatched
    simp [h0]
  · rfl

/-- A walker with no patterns emits no `Ok` entry. -/
theorem denFS_noGlobs {ov : Override} (h0 : ov.globs = []) (maxd : Option Nat) :
    ∀ (f : FS) (p : List String) (d : Nat) (e : Entry),
      WalkItem.ok e ∉ denFS ov maxd p d f := by
  intro f
  induction f with
  | nil => intro p d e; simp [denFS]
  | file nm r ih =>
      intro p d e
      simp [denFS, verdictAt_noGlobs h0]
      exact ih p d e
  | err nm r ih =>
      intro p d e
      simp [denFS]
      exact ih p d e
  | dir nm kids r ihk ihr =>
      intro p d e
      simp only [denFS, verdictAt_noGlobs h0, List.mem_append]
      rintro ((h1 | h1) | h2)
      · revert h1; simp
      · revert h1
        split
        · simp
        · exact fun h => ihk _ _ e h
      · exact ihr p d e h2

/-- Every emitted entry of a forest walk lies at or below the forest's
depth. -/
theorem denFS_depth {ov : Override} {maxd : Option Nat} :
    ∀ (f : FS) (p : List String) (d : Nat) (e : Entry),
      WalkItem.ok e ∈ denFS ov maxd p d f → d ≤ e.depth := by
  intro f
  induction f with
  | nil => intro p d e h; simp [denFS] at h
  | file nm r ih =>
      intro p d e h
      simp only [denFS, List.mem_append] at h
      rcases h with h | h
      · revert h
        split
        · intro h
          simp only [List.mem_singleton, WalkItem.ok.injEq] at h
          subst h
          exact Nat.le_refl d
        · simp
      · exact ih p d e h
  | err nm r ih =>
      intro p d e h
      simp only [denFS, List.mem_cons] at h
      rcases h with h | h
      · exact absurd h (by simp)
      · exact ih p d e h
  | dir nm kids r ihk ihr =>
      intro p d e h
      simp only [denFS, List.mem_append] at h
      rcases h with h | h
      · revert h
        split
        · simp
        · simp only [List.mem_append]
          rintro (h1 | h1)
          · revert h1
            split
            · intro h1
              simp only [List.mem_singleton, WalkItem.ok.injEq] at h1
              subst h1
              exact Nat.le_refl d
            · simp
          · revert h1
            split
            · simp
            · intro h1
              exact Nat.le_of_succ_le (ihk _ _ e h1)
      · exact ihr p d e h

/-- With only plain patterns a directory is never ignored, so nothing is
pruned, and a file entry appears in the walk of a forest exactly when it
is a file of that forest whose relative path the matcher whitelists. -/
theorem denFS_file_mem {ov : Override}
    (hall : ∀ g ∈ ov.globs, g.isWhitelist = false) :
    ∀ (f : FS) (p rp : List String) (d : Nat),
      stripBase ov.base p = some rp → d = rp.length + 1 →
      ∀ r : List String,
        (WalkItem.ok ⟨ov.base ++ r, false, r.length⟩ ∈ denFS ov none p d f ↔
          r ∈ filesUnderRel rp f ∧ fileWhitelisted ov r = true) := by
  intro f
  induction f with
  | nil =>
      intro p rp d hp hd r
      simp [denFS, filesUnderRel]
  | file nm rest ih =>
      intro p rp d hp hd r
      have hpe : p = ov.base ++ rp := stripBase_some hp
      have hsnoc : stripBase ov.base (p ++ [nm]) = some (rp ++ [nm]) :=
        stripBase_snoc hp nm
      have hv : verdictAt ov (p ++ [nm]) false = overrideMatched ov (rp ++ [nm]) false := by
        unfold verdictAt
        rw [hsnoc]
      simp only [denFS, List.mem_append, filesUnderRel, List.mem_cons]
      rw [ih p rp d hp hd r]
      constructor
      · rintro (h1 | h2)
        · revert h1
          split
          · rename_i hw
            intro h1
            simp only [List.mem_singleton, WalkItem.ok.injEq, Entry.mk.injEq] at h1
            obtain ⟨hpath, -, hlen⟩ := h1
            rw [hpe, List.append_assoc] at hpath
            have hr : r = rp ++ [nm] := List.append_cancel_left hpath
            subst hr
            refine ⟨Or.inl rfl, ?_⟩
            rw [hv] at hw
            simp [fileWhitelisted, hw]
          · simp
        · exact ⟨Or.inr h2.1, h2.2⟩
      · rintro ⟨h1 | h1, hwl⟩
        · subst h1
          left
          have hw : verdictAt ov (p ++ [nm]) false = .whitelist := by
            rw [hv]
            revert hwl
            unfold fileWhitelisted
            split
            · rename_i hm; intro _; exact hm
            · simp
          rw [if_pos hw]
          simp only [List.mem_singleton, WalkItem.ok.injEq, Entry.mk.injEq]
          refine ⟨?_, trivial, ?_⟩
          · rw [hpe, List.append_assoc]
          · simp [hd]
        · exact Or.inr ⟨h1, hwl⟩
  | err nm rest ih =>
      intro p rp d hp hd r
      simp only [denFS, List.mem_cons, filesUnderRel]
      rw [ih p rp d hp hd r]
      simp
  | dir nm kids rest ihk ihr =>
      intro p rp d hp hd r
      have hsnoc : stripBase ov.base (p ++ [nm]) = some (rp ++ [nm]) :=
        stripBase_snoc hp nm
      have hv : verdictAt ov (p ++ [nm]) true = overrideMatched ov (rp ++ [nm]) true := by
        unfold verdictAt
        rw [hsnoc]
      have hnig : verdictAt ov (p ++ [nm]) true ≠ .ignore := by
        rw [hv, overrideMatched_plain_eq hall]
        split
        · simp
        · split
          · simp
          · simp
      have hkids := ihk (p ++ [nm]) (rp ++ [nm]) (d + 1) hsnoc (by simp [hd]) r
      have hrest := ihr p rp d hp hd r
      cases hv2 : verdictAt ov (p ++ [nm]) true with
      | ignore => exact absurd hv2 hnig
      | whitelist =>
          simp only [denFS, hv2, List.mem_append, filesUnderRel, depthExceeds,
            Bool.false_eq_true, if_false]
          rw [hkids, hrest]
          constructor
          · rintro ((h1 | h1) | h2)
            · exfalso
              revert h1
              simp
            · exact ⟨Or.inl h1.1, h1.2⟩
            · exact ⟨Or.inr h2.1, h2.2⟩
          · rintro ⟨h1 | h1, hwl⟩
            · exact Or.inl (Or.inr ⟨h1, hwl⟩)
            · exact Or.inr ⟨h1, hwl⟩
      | none =>
          simp only [denFS, hv2, List.mem_append, filesUnderRel, depthExceeds,
            Bool.false_eq_true, if_false]
          rw [hkids, hrest]
          constructor
          · rintro ((h1 | h1) | h2)
            · exfalso
              revert h1
              simp
            · exact ⟨Or.inl h1.1, h1.2⟩
            · exact ⟨Or.inr h2.1, h2.2⟩
          · rintro ⟨h1 | h1, hwl⟩
            · exact Or.inl (Or.inr ⟨h1, hwl⟩)
            · exact Or.inr ⟨h1, hwl⟩

theorem forall₂_any_iff {cfg : GlobCfg} {ps : List String} {gs : List CGlob}
    (hf : List.Forall₂ (fun p g => compilePattern cfg p = .ok g) ps gs)
    (rel : List String) (isDir : Bool) :
    (gs.any fun g => cglobApplies g rel isDir) = true ↔
      ∃ p ∈ ps, patternApplies cfg p rel isDir = true := by
  induction hf with
  | nil => simp
  | cons hr hfs ih =>
      rename_i p g ps' gs'
      simp only [List.any_cons, Bool.or_eq_true, List.mem_cons]
      constructor
      · rintro (h1 | h2)
        · exact ⟨p, Or.inl rfl, by simp [patternApplies, hr, h1]⟩
        · obtain ⟨q, hq, ha⟩ := ih.mp h2
          exact ⟨q, Or.inr hq, ha⟩
      · rintro ⟨q, hq | hq, ha⟩
        · subst hq
          left
          simpa [patternApplies, hr] using ha
        · exact Or.inr (ih.mpr ⟨q, hq, ha⟩)

theorem fileWhitelisted_plain {ov : Override} {r : List String}
    (hall : ∀ g ∈ ov.globs, g.isWhitelist = false) :
    fileWhitelisted ov r = true ↔
      (ov.globs.any fun g => cglobApplies g r false) = true := by
  unfold fileWhitelisted
  rw [overrideMatched_plain_eq hall]
  by_cases ha : (ov.globs.any fun g => cglobApplies g r false) = true
  · simp [ha]
  · have ha' : (ov.globs.any fun g => cglobApplies g r false) = false := by
      simpa using ha
    simp only [ha', Bool.false_eq_true, if_false]
    split
    · rename_i heq
      exfalso
      revert heq
      split
      · simp
      · simp
    · simp

/-! ## Further cursor lemmas -/

theorem depthExceeds_zero (maxd : Option Nat) : depthExceeds maxd 0 = false := by
  cases maxd with
  | none => rfl
  | some m => simp [depthExceeds]

theorem frameOk_cons_file {b q : List String} {nm : String} {rel : List String}
    {d : Nat} {rest : FS}
    (hq : stripBase b (q ++ [nm]) = some rel) (hd : rel.length = d)
    (hrest : frameOk b ⟨q, d, rest⟩ = true) :
    frameOk b ⟨q, d, .file nm rest⟩ = true := by
  simp only [frameOk, fsTopNames, List.all_cons, Bool.and_eq_true] at hrest ⊢
  exact ⟨by rw [hq]; simp [hd], hrest⟩

theorem frameOk_cons_dir {b q : List String} {nm : String} {rel : List String}
    {d : Nat} {kids rest : FS}
    (hq : stripBase b (q ++ [nm]) = some rel) (hd : rel.length = d)
    (hrest : frameOk b ⟨q, d, rest⟩ = true) :
    frameOk b ⟨q, d, .dir nm kids rest⟩ = true := by
  simp only [frameOk, fsTopNames, List.all_cons, Bool.and_eq_true] at hrest ⊢
  exact ⟨by rw [hq]; simp [hd], hrest⟩

/-- The denotation of the initial cursor, one step unfolded: the root
directory is matched at the empty relative path, its entry is emitted only
on a whitelist verdict, and its contents are walked at depth 1 unless the
root verdict is ignore. -/
theorem framesDen_init {ov : Override} (maxd : Option Nat) (pre : List String)
    (nm : String) (kids : FS) (hbase : ov.base = pre ++ [nm]) :
    framesDen ov maxd (initFrames pre nm kids) =
      (match overrideMatched ov [] true with
       | .ignore => []
       | v =>
           (if v = .whitelist then [.ok ⟨pre ++ [nm], true, 0⟩] else []) ++
           (if depthExceeds maxd 1 then [] else denFS ov maxd (pre ++ [nm]) 1 kids)) := by
  have hstrip : stripBase ov.base (pre ++ [nm]) = some [] := by
    rw [hbase]
    simpa using stripBase_append (pre ++ [nm]) []
  have hv : verdictAt ov (pre ++ [nm]) true = overrideMatched ov [] true := by
    unfold verdictAt
    rw [hstrip]
  simp only [framesDen, initFrames, List.map_cons, List.map_nil, List.flatten_cons,
    List.flatten_nil, List.append_nil, frameDen, depthExceeds_zero, Bool.false_eq_true,
    if_false, denFS, hv, List.append_nil]

/-! ## Build-failure lemmas -/

theorem compileGlobs_append_error {cfg : GlobCfg} {p : String} {e : IgnoreError}
    (hp : compilePattern cfg p = .error e) :
    ∀ {l1 : List String}, (∀ q ∈ l1, (compilePattern cfg q).isOk = true) →
      ∀ l2 : List String, compileGlobs cfg (l1 ++ p :: l2) = .error e := by
  intro l1
  induction l1 with
  | nil =>
      intro _ l2
      simp only [List.nil_append, compileGlobs, hp]
  | cons q l1' ih =>
      intro h l2
      have hq : (compilePattern cfg q).isOk = true := h q (by simp)
      simp only [List.cons_append, compileGlobs]
      split
      · rename_i e' he
        rw [he] at hq
        simp [Except.isOk, Except.toBool] at hq
      · simp only [List.append_eq]
        rw [ih (fun q' hq' => h q' (List.mem_cons_of_mem _ hq')) l2]

theorem compileGlobs_ok_of {cfg : GlobCfg} :
    ∀ {ps : List String}, (∀ q ∈ ps, (compilePattern cfg q).isOk = true) →
      ∃ gs, compileGlobs cfg ps = .ok gs := by
  intro ps
  induction ps with
  | nil => intro _; exact ⟨[], rfl⟩
  | cons q ps' ih =>
      intro h
      have hq : (compilePattern cfg q).isOk = true := h q (by simp)
      obtain ⟨gs', hgs⟩ := ih fun q' hq' => h q' (List.mem_cons_of_mem _ hq')
      cases hcq : compilePattern cfg q with
      | error e =>
          rw [hcq] at hq
          simp [Except.isOk, Except.toBool] at hq
      | ok g =>
          refine ⟨g :: gs', ?_⟩
          simp only [compileGlobs, hcq, hgs]

/-! ## The claims -/

/-- C10: converting a `GlobError` into `std::io::Error` preserves the
underlying I/O error exactly when the `GlobError` directly wraps
`ignore::Error::Io`, and maps every other `GlobError` — a glob-syntax
error, a path-annotated wrapper (even around an I/O error), or an invalid
definition — to the detail-free error of kind `Other`. -/
theorem claim_C10_io_error_conversion :
    (∀ e : IOError, ioErrorOfGlobError ⟨.io e⟩ = e) ∧
    (∀ (g : Option String) (m : String),
        ioErrorOfGlobError ⟨.globE g m⟩ = otherIoError) ∧
    (∀ (p : List String) (er : IgnoreError),
        ioErrorOfGlobError ⟨.withPath p er⟩ = otherIoError) ∧
    ioErrorOfGlobError ⟨.invalidDefinition⟩ = otherIoError ∧
    otherIoError.kind = .other :=
  ⟨fun _ => rfl, fun _ _ => rfl, fun _ _ => rfl, rfl, rfl⟩

/-- C5 counterexample: building a walker from the empty pattern list does
not return a `PatternError` — it succeeds, producing a walker with an
empty rule set. -/
theorem claim_C5_counterexample :
    compileOverride ["tmp", "base"] ⟨false⟩ [] = .ok ⟨["tmp", "base"], []⟩ :=
  rfl

/-- C5 amended: building from an empty pattern list succeeds (for every
base and configuration), and the resulting walker yields no `Ok` entry on
any tree; malformed brace groups, by contrast, do fail with a
`PatternError` carrying the offending pattern text. -/
theorem claim_C5_empty_pattern_list :
    (∀ (base : List String) (cfg : GlobCfg),
        compileOverride base cfg [] = .ok ⟨base, []⟩) ∧
    (∀ (maxd : Option Nat) (pre : List String) (nm : String) (kids : FS) (e : Entry),
        WalkItem.ok e ∉
          globOut ⟨pre ++ [nm], []⟩ maxd (initFrames pre nm kids)) ∧
    (∀ (base : List String) (cfg : GlobCfg),
        compileOverride base cfg ["*.\x7bpng"] =
          .error ⟨.globE (some "*.\x7bpng") "unclosed alternate group"⟩) := by
  refine ⟨fun base cfg => rfl, ?_, fun base cfg => rfl⟩
  intro maxd pre nm kids e h
  rw [globOut_den (framesOk_init pre nm kids)] at h
  rw [framesDen_init maxd pre nm kids rfl] at h
  have hnone : overrideMatched (⟨pre ++ [nm], []⟩ : Override) [] true = .none := by
    unfold overrideMatched
    simp
  rw [hnone] at h
  simp only [List.nil_append, List.mem_append] at h
  rcases h with h | h
  · revert h
    split
    · rename_i hfalse
      exact absurd hfalse (by simp)
    · simp
  · revert h
    split
    · simp
    · exact denFS_noGlobs rfl maxd kids _ _ e

/-- C6: pattern compilation is atomic and fail-fast — if one pattern in
the list is malformed, `build` returns the compile error of the first
malformed pattern (an error that names that pattern's text) and no walker
value exists; when every pattern compiles, `build` succeeds. -/
theorem claim_C6_atomic_failfast :
    (∀ (base : List String) (cfg : GlobCfg) (l1 l2 : List String) (p : String)
        (e : IgnoreError),
        compilePattern cfg p = .error e →
        (∀ q ∈ l1, (compilePattern cfg q).isOk = true) →
        compileOverride base cfg (l1 ++ p :: l2) = .error ⟨e⟩ ∧
          ∃ m, e = .globE (some p) m) ∧
    (∀ (base : List String) (cfg : GlobCfg) (ps : List String),
        (∀ q ∈ ps, (compilePattern cfg q).isOk = true) →
        (compileOverride base cfg ps).isOk = true) := by
  constructor
  · intro base cfg l1 l2 p e hp h1
    refine ⟨?_, compilePattern_error_form hp⟩
    unfold compileOverride
    rw [compileGlobs_append_error hp h1 l2]
  · intro base cfg ps h
    obtain ⟨gs, hgs⟩ := compileGlobs_ok_of h
    unfold compileOverride
    rw [hgs]
    rfl

/-- C6 witness: the list `["*.rs", "*.\x7bpng", "x"]` fails at build time
with the error of its first malformed pattern, `"*.\x7bpng"`. -/
theorem claim_C6_witness :
    compileOverride ["b"] ⟨false⟩ ["*.rs", "*.\x7bpng", "x"] =
        .error ⟨.globE (some "*.\x7bpng") "unclosed alternate group"⟩ ∧
      ∃ m, IgnoreError.globE (some "*.\x7bpng") "unclosed alternate group" =
        .globE (some "*.\x7bpng") m :=
  claim_C6_atomic_failfast.1 ["b"] ⟨false⟩ ["*.rs"] ["x"] "*.\x7bpng"
    (.globE (some "*.\x7bpng") "unclosed alternate group") rfl (by decide)

/-- C7: an error from the underlying traversal does not abort iteration —
it is yielded once, at its position in the output sequence, and the walker
then continues with the remaining pending entries (siblings and other
subtrees). -/
theorem claim_C7_error_isolation
    (ov : Override) (maxd : Option Nat) (p : List String) (d : Nat)
    (nm : String) (r : FS) (stack : Frames)
    (hok : framesOk ov.base (⟨p, d, .err nm r⟩ :: stack) = true)
    (hd : depthExceeds maxd d = false) :
    globOut ov maxd (⟨p, d, .err nm r⟩ :: stack) =
      .error nm :: globOut ov maxd (⟨p, d, r⟩ :: stack) := by
  have hok' : framesOk ov.base (⟨p, d, r⟩ :: stack) = true := by
    rw [framesOk_cons, Bool.and_eq_true] at hok ⊢
    exact ⟨frameOk_err hok.1, hok.2⟩
  rw [globOut_den hok, globOut_den hok']
  simp [framesDen_cons, frameDen, hd, denFS]

/-- C7 witness: a concrete unreadable entry between two files — the error
appears between their entries and the later sibling is still yielded. -/
theorem claim_C7_witness :
    globOut ⟨["b"], [⟨false, false, false, [[.globstar, .seg [.star]]]⟩]⟩ none
        (⟨["b"], 1, .err "boom" (.file "x" .nil)⟩ :: []) =
      .error "boom" ::
        globOut ⟨["b"], [⟨false, false, false, [[.globstar, .seg [.star]]]⟩]⟩ none
          (⟨["b"], 1, .file "x" .nil⟩ :: []) :=
  claim_C7_error_isolation _ none ["b"] 1 "boom" (.file "x" .nil) []
    (by decide) (by decide)

/-- C9: on a well-formed cursor — one whose pending paths all extend the
matcher's base, which is `walkdir`'s contract — every `Ok` entry the
underlying walker yields has a path the base strips from, the `unwrap`'s
panic branch in `GlobWalker::next` is never taken, and well-formedness is
preserved by each step, so the guarantee persists throughout iteration. -/
theorem claim_C9_strip_never_panics
    (ov : Override) (maxd : Option Nat) (fs : Frames)
    (hok : framesOk ov.base fs = true) :
    (∀ e fs', wdNext maxd fs = some (.ok e, fs') →
        (∃ rel, stripBase ov.base e.path = some rel) ∧
          framesOk ov.base fs' = true) ∧
    (globNextI ov maxd fs).2 ≠ .panicked ∧
    (∀ vs it fs', globNextI ov maxd fs = (vs, .yield it fs') →
        framesOk ov.base fs' = true) := by
  refine ⟨?_, ?_, ?_⟩
  · intro e fs' hw
    have h := @wdNext_den ov maxd fs hok
    rw [hw] at h
    obtain ⟨hok1, -, rel, hs, -⟩ := h
    exact ⟨⟨rel, hs⟩, hok1⟩
  · intro hp
    have h := @globNextI_denAux ov maxd (framesSize fs) fs rfl hok
      (globNextI ov maxd fs).1 (globNextI ov maxd fs).2 rfl
    rw [hp] at h
    exact h
  · intro vs it fs' hg
    exact (globNextI_denAux (framesSize fs) fs rfl hok vs (.yield it fs') hg).1

/-- C9 witness: the guarantee instantiated on the initial cursor of a
small tree. -/
theorem claim_C9_witness :
    (∀ e fs', wdNext none (initFrames ["t"] "b" (.file "x" .nil)) = some (.ok e, fs') →
        (∃ rel, stripBase ["t", "b"] e.path = some rel) ∧
          framesOk ["t", "b"] fs' = true) ∧
    (globNextI ⟨["t", "b"], []⟩ none (initFrames ["t"] "b" (.file "x" .nil))).2 ≠
      .panicked ∧
    (∀ vs it fs',
        globNextI ⟨["t", "b"], []⟩ none (initFrames ["t"] "b" (.file "x" .nil)) =
          (vs, .yield it fs') →
        framesOk ["t", "b"] fs' = true) :=
  claim_C9_strip_never_panics ⟨["t", "b"], []⟩ none
    (initFrames ["t"] "b" (.file "x" .nil)) (by decide)

/-- C8 counterexample: with the pattern list `["*"]` — compiled by the
gitignore builder to `**/*`, whose regular expression matches the empty
relative path — the walker yields the base directory entry itself (depth
0, path equal to the traversal root). -/
theorem claim_C8_counterexample :
    compileOverride ["tmp", "base"] ⟨false⟩ ["*"] = .ok c8Ov ∧
      globOut c8Ov none (initFrames ["tmp"] "base" .nil) =
        [.ok ⟨["tmp", "base"], true, 0⟩] := by
  constructor
  · rfl
  · rw [globOut_den (by decide)]
    decide

/-- C8 amended: the base directory entry is never yielded provided the
compiled matcher does not whitelist the empty relative path (every entry
in the output then has positive depth); a pattern such as bare `*` does
whitelist it and makes the walker yield the root. -/
theorem claim_C8_root_not_yielded
    (pre : List String) (nm : String) (kids : FS) (cfg : GlobCfg)
    (ps : List String) (ov : Override) (maxd : Option Nat)
    (hc : compileOverride (pre ++ [nm]) cfg ps = .ok ov)
    (hroot : overrideMatched ov [] true ≠ .whitelist) :
    ∀ e, WalkItem.ok e ∈ globOut ov maxd (initFrames pre nm kids) → 0 < e.depth := by
  intro e h
  have hbase : ov.base = pre ++ [nm] := (compileOverride_ok hc).1
  rw [globOut_den (by rw [hbase]; exact framesOk_init pre nm kids)] at h
  rw [framesDen_init maxd pre nm kids hbase] at h
  revert h
  split
  · simp
  · rename_i v hv
    simp only [List.mem_append]
    rintro (h1 | h1)
    · revert h1
      split
      · rename_i hw
        intro h1
        exact absurd hw hroot
      · simp
    · revert h1
      split
      · simp
      · intro h1
        have := denFS_depth kids (pre ++ [nm]) 1 e h1
        omega

/-- C8 amended witness: with the pattern `"a.png"` the matcher has no
opinion on the empty relative path, and the one entry the walker yields on
a concrete tree indeed has positive depth. -/
theorem claim_C8_witness :
    0 < (Entry.mk ["tmp", "base", "a.png"] false 1).depth :=
  claim_C8_root_not_yielded ["tmp"] "base" (.file "a.png" .nil) ⟨false⟩
    ["a.png"]
    ⟨["tmp", "base"],
     [⟨false, false, false, [[.globstar, .seg ("a.png".toList.map .lit)]]⟩]⟩
    none rfl (by decide) ⟨["tmp", "base", "a.png"], false, 1⟩
    (by rw [globOut_den (by decide)]; decide)

/-- C3: for the pattern list `["*.{png,jpg,gif}", "!Pictures"]` over a
tree with three top-level images and a `Pictures` directory holding three
more, the output is exactly the three top-level images; the underlying
walker visits only the root, the three images and the `Pictures`
directory entry itself — the traversal is pruned at `Pictures` via
`skip_current_dir`, never reaching its contents, rather than merely
filtering them from the output. -/
theorem claim_C3_blacklist_dir :
    compileOverride ["tmp", "base"] ⟨false⟩ ["*.{png,jpg,gif}", "!Pictures"] =
        .ok c3Ov ∧
    globOut c3Ov none (initFrames ["tmp"] "base" picTree) =
      [.ok ⟨["tmp", "base", "a.png"], false, 1⟩,
       .ok ⟨["tmp", "base", "b.png"], false, 1⟩,
       .ok ⟨["tmp", "base", "c.png"], false, 1⟩] ∧
    globVis c3Ov none (initFrames ["tmp"] "base" picTree) =
      [⟨["tmp", "base"], true, 0⟩,
       ⟨["tmp", "base", "a.png"], false, 1⟩,
       ⟨["tmp", "base", "b.png"], false, 1⟩,
       ⟨["tmp", "base", "c.png"], false, 1⟩,
       ⟨["tmp", "base", "Pictures"], true, 1⟩] ∧
    (∀ ent ∈ globVis c3Ov none (initFrames ["tmp"] "base" picTree),
        ent.path.take 3 = ["tmp", "base", "Pictures"] →
          ent.path = ["tmp", "base", "Pictures"]) := by
  have hvis : globVis c3Ov none (initFrames ["tmp"] "base" picTree) =
      [⟨["tmp", "base"], true, 0⟩,
       ⟨["tmp", "base", "a.png"], false, 1⟩,
       ⟨["tmp", "base", "b.png"], false, 1⟩,
       ⟨["tmp", "base", "c.png"], false, 1⟩,
       ⟨["tmp", "base", "Pictures"], true, 1⟩] := by
    rw [globVis_den (by decide)]
    decide
  refine ⟨rfl, ?_, hvis, ?_⟩
  · rw [globOut_den (by decide)]
    decide
  · rw [hvis]
    decide

/-- C1: for a pattern set with no negated patterns (that compiles), a
file under the base directory appears as an `Ok` entry in the walker's
output exactly when some pattern in the set matches its path relative to
the base directory. -/
theorem claim_C1_inclusion_correctness
    (pre : List String) (nm : String) (kids : FS) (cfg : GlobCfg)
    (ps : List String) (ov : Override) (r : List String)
    (hneg : ∀ p ∈ ps, patternNegated p = false)
    (hc : compileOverride (pre ++ [nm]) cfg ps = .ok ov)
    (hr : r ∈ filesUnderRel [] kids) :
    (WalkItem.ok ⟨(pre ++ [nm]) ++ r, false, r.length⟩ ∈
        globOut ov none (initFrames pre nm kids)) ↔
      ∃ p ∈ ps, patternApplies cfg p r false = true := by
  obtain ⟨hbase, hf⟩ := compileOverride_ok hc
  have hall := compileOverride_allPlain hc hneg
  rw [globOut_den (by rw [hbase]; exact framesOk_init pre nm kids)]
  rw [framesDen_init none pre nm kids hbase]
  have hstrip : stripBase ov.base (pre ++ [nm]) = some [] := by
    rw [hbase]
    simpa using stripBase_append (pre ++ [nm]) []
  have hkids := denFS_file_mem hall kids (pre ++ [nm]) [] 1 hstrip rfl r
  rw [hbase] at hkids
  have hiff : (WalkItem.ok ⟨(pre ++ [nm]) ++ r, false, r.length⟩ ∈
      denFS ov none (pre ++ [nm]) 1 kids) ↔
      (∃ p ∈ ps, patternApplies cfg p r false = true) := by
    rw [hkids]
    rw [show (r ∈ filesUnderRel [] kids ∧ fileWhitelisted ov r = true) ↔
        fileWhitelisted ov r = true from by simp [hr]]
    rw [fileWhitelisted_plain hall]
    exact forall₂_any_iff hf r false
  constructor
  · intro h
    revert h
    split
    · simp
    · simp only [List.mem_append]
      rintro (h1 | h1)
      · revert h1
        split
        · intro h1
          simp only [List.mem_singleton, WalkItem.ok.injEq, Entry.mk.injEq] at h1
          exact absurd h1.2.1.symm (by simp)
        · simp
      · revert h1
        split
        · simp
        · intro h1
          exact hiff.mp h1
  · intro h
    split
    · rename_i hig
      exfalso
      have := @overrideMatched_plain_eq ov [] true hall
      rw [hig] at this
      revert this
      split
      · simp
      · split
        · simp
        · simp
    · refine List.mem_append.mpr (Or.inr ?_)
      split
      · rename_i hde
        exact absurd hde (by simp [depthExceeds])
      · exact hiff.mpr h

/-- C1 witness: pattern `*.png` over a tree with `a.png` and `b.txt` —
the file `a.png` appears because the pattern matches it. -/
theorem claim_C1_witness :
    ((∀ p ∈ ["*.png"], patternNegated p = false) ∧
      "a.png" :: [] ∈ filesUnderRel [] (.file "a.png" (.file "b.txt" .nil))) ∧
    (WalkItem.ok ⟨["tmp", "base", "a.png"], false, 1⟩ ∈
        globOut ⟨["tmp", "base"],
                 [⟨false, false, false,
                   [[.globstar, .seg (.star :: ".png".toList.map .lit)]]⟩]⟩ none
          (initFrames ["tmp"] "base" (.file "a.png" (.file "b.txt" .nil))) ↔
      ∃ p ∈ ["*.png"], patternApplies ⟨false⟩ p ["a.png"] false = true) :=
  ⟨⟨by decide, by decide⟩,
   claim_C1_inclusion_correctness ["tmp"] "base" (.file "a.png" (.file "b.txt" .nil))
     ⟨false⟩ ["*.png"] _ ["a.png"] (by decide) rfl (by decide)⟩

theorem forall₂_append_cons_left {α β : Type} {R : α → β → Prop} :
    ∀ {l1 : List α} {p : α} {l2 : List α} {gs : List β},
      List.Forall₂ R (l1 ++ p :: l2) gs →
      ∃ m1 g m2, gs = m1 ++ g :: m2 ∧ R p g ∧ List.Forall₂ R l2 m2 := by
  intro l1
  induction l1 with
  | nil =>
      intro p l2 gs h
      cases h with
      | cons hr hf => exact ⟨[], _, _, rfl, hr, hf⟩
  | cons a l1' ih =>
      intro p l2 gs h
      cases h with
      | cons hr hf =>
          obtain ⟨m1, g, m2, hm, hg, hm2⟩ := ih hf
          subst hm
          exact ⟨_ :: m1, g, m2, rfl, hg, hm2⟩

/-- C4: patterns are evaluated with last-match-wins precedence — when a
pattern applies to a path and no later pattern in the list applies, the
matcher's verdict is that pattern's sense (ignore for a negated pattern,
whitelist for a plain one), overriding all earlier patterns.  In
particular `["*.rs", "!world.rs"]` over `hello.rs`, `world.rs` yields
exactly `hello.rs`. -/
theorem claim_C4_last_match_wins :
    (∀ (base : List String) (cfg : GlobCfg) (l1 l2 : List String) (p : String)
        (ov : Override) (rel : List String) (isDir : Bool),
        compileOverride base cfg (l1 ++ p :: l2) = .ok ov →
        patternApplies cfg p rel isDir = true →
        (∀ q ∈ l2, patternApplies cfg q rel isDir = false) →
        overrideMatched ov rel isDir =
          (if patternNegated p then .ignore else .whitelist)) ∧
    (compileOverride ["tmp", "base"] ⟨false⟩ ["*.rs", "!world.rs"] = .ok c4Ov ∧
      globOut c4Ov none (initFrames ["tmp"] "base" rsTree) =
        [.ok ⟨["tmp", "base", "hello.rs"], false, 1⟩]) := by
  refine ⟨?_, rfl, ?_⟩
  · intro base cfg l1 l2 p ov rel isDir hc happ hlater
    obtain ⟨hbase, hf⟩ := compileOverride_ok hc
    obtain ⟨m1, g, m2, hgs, hg, hm2⟩ := forall₂_append_cons_left hf
    have happg : cglobApplies g rel isDir = true := by
      simpa [patternApplies, hg] using happ
    have hl2 : ∀ g' ∈ m2, cglobApplies g' rel isDir = false := by
      intro g' hmem
      obtain ⟨q, hq, hqc⟩ := forall₂_mem_right hm2 g' hmem
      simpa [patternApplies, hqc] using hlater q hq
    have hmatch := @gitignoreMatched_last rel isDir m1 m2 g happg hl2
    have hne : ov.globs ≠ [] := by rw [hgs]; simp
    have hwl : g.isWhitelist = patternNegated p := compilePattern_isWhitelist hg
    unfold overrideMatched
    rw [if_neg (by simp [List.isEmpty_iff, hne])]
    rw [hgs, hmatch, hwl]
    cases hpn : patternNegated p with
    | true => simp [invertM]
    | false => simp [invertM]
  · rw [globOut_den (by decide)]
    decide

/-- C4 witness: the general precedence statement applied to
`["*.rs", "!world.rs"]` at the path `world.rs` — the later negated
pattern wins, giving verdict ignore. -/
theorem claim_C4_witness :
    overrideMatched c4Ov ["world.rs"] false =
      (if patternNegated "!world.rs" then .ignore else .whitelist) :=
  claim_C4_last_match_wins.1 ["tmp", "base"] ⟨false⟩ ["*.rs"] [] "!world.rs"
    c4Ov ["world.rs"] false rfl (by decide) (by decide)

/-- C2: the iterator realises the spec's per-step state machine.  For the
next pending directory entry, the walker's remaining output is: the entry
itself when the spec table says emit, followed by the output of the cursor
in which the directory's listing is present exactly when the table says
descend (and its depth does not exceed the maximum) — in particular an
ignored directory's subtree is dropped from the cursor, not filtered.
For a file entry, the output is the entry when the table says emit,
followed by the output for the remaining entries. -/
theorem claim_C2_per_step_state_machine
    (ov : Override) (maxd : Option Nat) (q rel : List String) (nm : String)
    (d : Nat) (kids rest : FS) (stack : Frames)
    (hq : stripBase ov.base (q ++ [nm]) = some rel)
    (hd : rel.length = d)
    (hrest : framesOk ov.base (⟨q, d, rest⟩ :: stack) = true)
    (hdep : depthExceeds maxd d = false) :
    (globOut ov maxd (⟨q, d, .dir nm kids rest⟩ :: stack) =
      (if (specStepDir (overrideMatched ov rel true)).emits
       then [.ok ⟨q ++ [nm], true, d⟩] else []) ++
      globOut ov maxd
        (if (specStepDir (overrideMatched ov rel true)).descends = true ∧
            depthExceeds maxd (d + 1) = false
         then ⟨q ++ [nm], d + 1, kids⟩ :: ⟨q, d, rest⟩ :: stack
         else ⟨q, d, rest⟩ :: stack)) ∧
    (globOut ov maxd (⟨q, d, .file nm rest⟩ :: stack) =
      (if (specStepFile (overrideMatched ov rel false)).emits
       then [.ok ⟨q ++ [nm], false, d⟩] else []) ++
      globOut ov maxd (⟨q, d, rest⟩ :: stack)) := by
  have hfr : frameOk ov.base ⟨q, d, rest⟩ = true := by
    rw [framesOk_cons, Bool.and_eq_true] at hrest
    exact hrest.1
  have hokdir : framesOk ov.base (⟨q, d, .dir nm kids rest⟩ :: stack) = true := by
    rw [framesOk_cons, Bool.and_eq_true] at hrest ⊢
    exact ⟨frameOk_cons_dir hq hd hfr, hrest.2⟩
  have hokfile : framesOk ov.base (⟨q, d, .file nm rest⟩ :: stack) = true := by
    rw [framesOk_cons, Bool.and_eq_true] at hrest ⊢
    exact ⟨frameOk_cons_file hq hd hfr, hrest.2⟩
  have hokkids : framesOk ov.base
      (⟨q ++ [nm], d + 1, kids⟩ :: ⟨q, d, rest⟩ :: stack) = true := by
    rw [framesOk_cons, Bool.and_eq_true]
    refine ⟨?_, hrest⟩
    simp only [frameOk, List.all_eq_true]
    intro k hk
    rw [stripBase_snoc hq k]
    simp [hd]
  have hvq : verdictAt ov (q ++ [nm]) true = overrideMatched ov rel true := by
    unfold verdictAt
    rw [hq]
  have hvqf : verdictAt ov (q ++ [nm]) false = overrideMatched ov rel false := by
    unfold verdictAt
    rw [hq]
  constructor
  · rw [globOut_den hokdir]
    cases hv : overrideMatched ov rel true with
    | whitelist =>
        rw [if_pos (show (specStepDir MatchV.whitelist).emits = true from rfl)]
        by_cases hde : depthExceeds maxd (d + 1) = true
        · rw [if_neg (show ¬((specStepDir MatchV.whitelist).descends = true ∧
              depthExceeds maxd (d + 1) = false) from by simp [specStepDir, hde])]
          rw [globOut_den hrest]
          simp [framesDen_cons, frameDen, hdep, denFS, hvq, hv, hde]
        · have hde' : depthExceeds maxd (d + 1) = false := by simpa using hde
          rw [if_pos (show (specStepDir MatchV.whitelist).descends = true ∧
              depthExceeds maxd (d + 1) = false from ⟨rfl, hde'⟩)]
          rw [globOut_den hokkids]
          simp [framesDen_cons, frameDen, hdep, denFS, hvq, hv, hde']
    | ignore =>
        rw [if_neg (show ¬((specStepDir MatchV.ignore).emits = true) from by
          simp [specStepDir])]
        rw [if_neg (show ¬((specStepDir MatchV.ignore).descends = true ∧
            depthExceeds maxd (d + 1) = false) from by simp [specStepDir])]
        rw [globOut_den hrest]
        simp [framesDen_cons, frameDen, hdep, denFS, hvq, hv]
    | none =>
        rw [if_neg (show ¬((specStepDir MatchV.none).emits = true) from by
          simp [specStepDir])]
        by_cases hde : depthExceeds maxd (d + 1) = true
        · rw [if_neg (show ¬((specStepDir MatchV.none).descends = true ∧
              depthExceeds maxd (d + 1) = false) from by simp [hde])]
          rw [globOut_den hrest]
          simp [framesDen_cons, frameDen, hdep, denFS, hvq, hv, hde]
        · have hde' : depthExceeds maxd (d + 1) = false := by simpa using hde
          rw [if_pos (show (specStepDir MatchV.none).descends = true ∧
              depthExceeds maxd (d + 1) = false from ⟨rfl, hde'⟩)]
          rw [globOut_den hokkids]
          simp [framesDen_cons, frameDen, hdep, denFS, hvq, hv, hde']
  · rw [globOut_den hokfile, globOut_den hrest]
    cases hv : overrideMatched ov rel false with
    | whitelist =>
        rw [if_pos (show (specStepFile MatchV.whitelist).emits = true from rfl)]
        simp [framesDen_cons, frameDen, hdep, denFS, hvqf, hv]
    | ignore =>
        rw [if_neg (show ¬((specStepFile MatchV.ignore).emits = true) from by
          simp [specStepFile])]
        simp [framesDen_cons, frameDen, hdep, denFS, hvqf, hv]
    | none =>
        rw [if_neg (show ¬((specStepFile MatchV.none).emits = true) from by
          simp [specStepFile])]
        simp [framesDen_cons, frameDen, hdep, denFS, hvqf, hv]

/-- C2 witness: the state machine instantiated at the `Pictures` step of
the blacklist scenario — the ignored directory's listing is dropped and
nothing is emitted. -/
theorem claim_C2_witness :
    (globOut c3Ov none
        (⟨["tmp", "base"], 1, .dir "Pictures" (.file "a.png" .nil) .nil⟩ :: []) =
      (if (specStepDir (overrideMatched c3Ov ["Pictures"] true)).emits
       then [.ok ⟨["tmp", "base", "Pictures"], true, 1⟩] else []) ++
      globOut c3Ov none
        (if (specStepDir (overrideMatched c3Ov ["Pictures"] true)).descends = true ∧
            depthExceeds none (1 + 1) = false
         then ⟨["tmp", "base", "Pictures"], 1 + 1, .file "a.png" .nil⟩ ::
              ⟨["tmp", "base"], 1, .nil⟩ :: []
         else ⟨["tmp", "base"], 1, .nil⟩ :: [])) ∧
    (globOut c3Ov none (⟨["tmp", "base"], 1, .file "Pictures" .nil⟩ :: []) =
      (if (specStepFile (overrideMatched c3Ov ["Pictures"] false)).emits
       then [.ok ⟨["tmp", "base", "Pictures"], false, 1⟩] else []) ++
      globOut c3Ov none (⟨["tmp", "base"], 1, .nil⟩ :: [])) :=
  claim_C2_per_step_state_machine c3Ov none ["tmp", "base"] ["Pictures"]
    "Pictures" 1 (.file "a.png" .nil) .nil [] (by decide) (by decide)
    (by decide) (by decide)

end Globwalk
